import Mathlib

/-!
Shallow embedding of the circuit-solver core of qiskit-cold-atom:
`FermionCircuitSolver` (fermions/fermion_circuit_solver.py) and
`SpinCircuitSolver` (spins/spin_circuit_solver.py).

Python `Fraction` values are modelled by `ℚ` (both are kept reduced with a
positive denominator), machine integers by `Nat`/`Int` (no overflow is
possible in the modelled code paths), complex coefficients by `ℂ`, and a
raised `QiskitColdAtomError` / `ValueError` / `IndexError` by the
`Except QCAErr` monad.  A scipy one-entry sparse column vector
`csc_matrix(([1+0j], ([idx],[0])), shape=(dim,1))` is modelled by the dense
column `oneHot dim idx`.  The numpy sampling step `np.random.choice` is
external randomness: the sampled basis indices are passed in as an explicit
argument, and the modelled `draw_shots` performs the checks and the decoding
that the source performs around that call.
-/

/-- The error conditions raised by the two solver files.  The source raises
`QiskitColdAtomError` with a message for all of them except `indexError`
(Python `IndexError` from an out-of-range list subscript) and
`valueError` (Python `ValueError`, e.g. `int()` of a non-digit or
`list.index` of a missing element). -/
inductive QCAErr where
  /-- basis setter: `Dimension ... exceeds the maximum allowed dimension`. -/
  | dimExceeded : QCAErr
  /-- draw_shots: `Dimension of the measurement probabilities ... does not match`. -/
  | dimMismatch : QCAErr
  /-- draw_shots: `The number of shots has to be set before drawing measurements`. -/
  | shotsUnset : QCAErr
  /-- spin draw_shots: `The length of given measurement distribution it not compatible`. -/
  | incompatibleLength : QCAErr
  /-- _check_conservations: `Expected length ... for fermionic operator`. -/
  | termLenMismatch : QCAErr
  /-- _check_conservations: `The number of wires in the circuit ... is not a multiple`. -/
  | speciesShape : QCAErr
  /-- _embed_operator: operator size does not match the qargs. -/
  | sizeMismatch : QCAErr
  /-- SpinCircuitSolver.__init__: `spin must be a positive half-integer`. -/
  | spinNotHalfInteger : QCAErr
  /-- Python IndexError from subscripting past the end of a list. -/
  | indexError : QCAErr
  /-- Python ValueError (int() of a non-digit, list.index of a missing element). -/
  | valueError : QCAErr
deriving DecidableEq, Repr

/-- Python `int()` applied to an exact rational: truncation toward zero. -/
def pyInt (q : ℚ) : ℤ :=
  if 0 ≤ q then ⌊q⌋ else -⌊-q⌋

/-- The one-entry column vector
`csc_matrix(([1+0j], ([idx],[0])), shape=(dim,1))`, modelled densely. -/
def oneHot (dim idx : ℕ) : List ℂ :=
  (List.range dim).map (fun j => if j = idx then 1 else 0)

/-- `v` has exactly one nonzero entry, of magnitude 1, at position `idx`. -/
def unitAt (v : List ℂ) (idx : ℕ) : Prop :=
  idx < v.length ∧ Complex.abs (v.getD idx 0) = 1 ∧
    ∀ j < v.length, j ≠ idx → v.getD j 0 = 0

/-! ## SpinCircuitSolver -/

/-- The state of a `SpinCircuitSolver` after a successful `__init__`. -/
structure SpinSolver where
  spin : ℚ
  shots : Option ℕ
  seed : Option ℕ
deriving DecidableEq, Repr

/-- `SpinCircuitSolver.__init__`: stores `Fraction(spin)` and raises unless its
denominator is 1 or 2. -/
def SpinCircuitSolver_init (spin : ℚ) (shots seed : Option ℕ) :
    Except QCAErr SpinSolver :=
  if spin.den = 1 ∨ spin.den = 2 then .ok ⟨spin, shots, seed⟩
  else .error .spinNotHalfInteger

/-- `SpinCircuitSolver.preprocess_circuit`: the stored Hilbert-space dimension
`int((2 * self.spin + 1) ** circuit.num_qubits)`. -/
def spin_dim (spin : ℚ) (num_qubits : ℕ) : ℕ :=
  (pyInt ((2 * spin + 1) ^ num_qubits)).toNat

/-- `SpinCircuitSolver.get_initial_state`: a one-entry column vector at basis
index 0, of length `int((2 * self.spin + 1) ** circuit.num_qubits)`. -/
def SpinCircuitSolver_get_initial_state (spin : ℚ) (num_qubits : ℕ) : List ℂ :=
  oneHot (spin_dim spin num_qubits) 0

/-- The integer logarithm: `some n` iff `base ^ n = dim` with the least such
`n`.  The source computes `num_wires = math.log(meas_dim, base)` in binary64
and accepts iff `num_wires.is_integer()`; per the spec this decides whether
the length is "an exact power relationship to `(2S+1)` over an integer wire
count".  The float computation coincides with this exact check at the small
concrete sizes evaluated below. -/
def intLog? (base dim : ℕ) : Option ℕ :=
  (List.range (dim + 1)).find? (fun n => base ^ n = dim)

/-- The digit loop of `SpinCircuitSolver.draw_shots`:
`for i in range(num_wires): digits[i] = meas_idx % base; meas_idx //= base`. -/
def spin_decode_index (base : ℕ) : ℕ → ℕ → List ℕ
  | 0, _ => []
  | num_wires + 1, meas_idx => meas_idx % base :: spin_decode_index base num_wires (meas_idx / base)

/-- `SpinCircuitSolver.draw_shots`.  `meas_dim` is the length of the given
measurement distribution; `sampled` is the list of basis indices produced by
`np.random.choice` (external randomness). -/
def SpinCircuitSolver_draw_shots (spin : ℚ) (dim : ℕ) (shots : Option ℕ)
    (meas_dim : ℕ) (sampled : List ℕ) : Except QCAErr (List String) :=
  if meas_dim ≠ dim then .error .dimMismatch
  else match shots with
    | none => .error .shotsUnset
    | some _ =>
      let base := (pyInt (2 * spin + 1)).toNat
      match intLog? base meas_dim with
      | none => .error .incompatibleLength
      | some num_wires =>
        .ok (sampled.map (fun i =>
          String.intercalate " " ((spin_decode_index base num_wires i).map toString)))

/-! ## FermionCircuitSolver -/

/-- Modelled from the spec: `FermionicBasis`
(qiskit_cold_atom.fermions.fermionic_basis, not under src/) is "an ordered,
deduplicated collection of occupation-number vectors"; `get_occupations()`
returns that ordered collection and `dimension` is the number of basis
vectors. -/
structure FermionicBasisL where
  occupations : List (List ℕ)
deriving DecidableEq, Repr

/-- `FermionicBasis.dimension`: the number of basis vectors. -/
def FermionicBasisL.dimension (b : FermionicBasisL) : ℕ :=
  b.occupations.length

/-- The per-circuit state of a `FermionCircuitSolver` touched by the `basis`
property: the stored `_basis` (initialised to `None` in `__init__`) and the
configured ceiling `max_dimension` of the base solver. -/
structure FermionSolverState where
  max_dimension : ℕ
  basis : Option FermionicBasisL
deriving DecidableEq, Repr

/-- The `basis` property setter of `FermionCircuitSolver`: raises if the new
basis's dimension exceeds `max_dimension` (leaving `_basis` untouched),
otherwise stores the new basis. -/
def FermionCircuitSolver_basis_set (s : FermionSolverState) (b : FermionicBasisL) :
    Except QCAErr FermionSolverState :=
  if b.dimension > s.max_dimension then .error .dimExceeded
  else .ok { s with basis := some b }

/-- The solver states reachable from `__init__` (which stores `_basis = None`)
by successful assignments through the `basis` setter — the only place in the
source that writes `_basis` afterwards (`preprocess_circuit` goes through the
setter).  A raising assignment propagates the exception and leaves the state
unchanged, so it produces no new state. -/
inductive FermionReachable : FermionSolverState → Prop
  | init (m : ℕ) : FermionReachable ⟨m, none⟩
  | step (s : FermionSolverState) (b : FermionicBasisL) (s' : FermionSolverState) :
      FermionReachable s → FermionCircuitSolver_basis_set s b = .ok s' →
      FermionReachable s'

/-- Python `list.index(x)` on a list that contains `x`: the first position
holding an element equal to `x` (the absent case raises `ValueError` and is
handled at the call site). -/
def pyIndex (l : List (List ℕ)) (x : List ℕ) : ℕ :=
  l.findIdx (fun y => y = x)

/-- `FermionCircuitSolver.get_initial_state`.  `initial_occs` stands for
`FermionicState.initial_state(circuit, num_species).occupations_flat`
(modelled from the spec: `FermionicState` is not under src/; its flattened
ordered occupation vector is taken as given). -/
def FermionCircuitSolver_get_initial_state (basis : FermionicBasisL)
    (initial_occs : List ℕ) : Except QCAErr (List ℂ) :=
  if initial_occs ∈ basis.occupations then
    .ok (oneHot basis.dimension (pyIndex basis.occupations initial_occs))
  else .error .valueError

/-- A fermionic gate generator in dense-label form, as consumed by
`_check_conservations`: `FermionicOp.to_list()` yields `(opstring, coeff)`
pairs whose `opstring` is a dense label over the characters
`I`, `+`, `-`, `N`, `E`, one per wire. -/
def FermionicOpDense : Type := List (List Char × ℂ)

/-- The dense opstrings of all gate generators of a circuit, in gate order
then term order.  `self.to_operators(circuit)` (base solver, not under src/)
yields the circuit's gate generators in order; the per-operator
`isinstance(..., FermionicOp)` check is discharged by typing, so flattening
the two source loops into one list of terms preserves the control flow. -/
def termsOf (ops : List FermionicOpDense) : List (List Char) :=
  ops.flatMap (fun op => op.map Prod.fst)

/-- The loop body of `FermionCircuitSolver._check_conservations`, over the
flattened list of term strings, carrying the running `spin_conservation`
flag.  `return False, False` inside the loop is modelled by answering
`.ok (false, false)` without recursing; the per-species `break` that only
sets `spin_conservation = False` is the short-circuit of `List.all`. -/
def checkTermsF (num_species num_qubits : ℕ) (spin_conservation : Bool) :
    List (List Char) → Except QCAErr (Bool × Bool)
  | [] => .ok (true, spin_conservation)
  | opstring :: rest =>
    if opstring.length ≠ num_qubits then .error .termLenMismatch
    else if opstring.count '+' ≠ opstring.count '-' then .ok (false, false)
    else if 1 < num_species then
      if num_qubits % num_species ≠ 0 then .error .speciesShape
      else
        let sites := num_qubits / num_species
        let speciesOk := (List.range num_species).all (fun i =>
          ((opstring.drop (i * sites)).take sites).count '+' =
            ((opstring.drop (i * sites)).take sites).count '-')
        checkTermsF num_species num_qubits (spin_conservation && speciesOk) rest
    else checkTermsF num_species num_qubits spin_conservation rest

/-- `FermionCircuitSolver._check_conservations`: returns
`(particle_conservation, spin_conservation)` for the circuit's gate
generators, starting from `(True, True)`. -/
def FermionCircuitSolver_check_conservations (num_species num_qubits : ℕ)
    (ops : List FermionicOpDense) : Except QCAErr (Bool × Bool) :=
  checkTermsF num_species num_qubits true (termsOf ops)

/-- `FermionCircuitSolver.draw_shots`: checks, then decodes the sampled basis
indices (`np.random.choice` over `outcome_strings`, external randomness
passed as `sampled`) into concatenated occupation digit strings. -/
def FermionCircuitSolver_draw_shots (basis : FermionicBasisL) (dim : ℕ)
    (shots : Option ℕ) (meas_dim : ℕ) (sampled : List ℕ) :
    Except QCAErr (List String) :=
  if meas_dim ≠ dim then .error .dimMismatch
  else match shots with
    | none => .error .shotsUnset
    | some _ =>
      let outcome_strings := basis.occupations.map (fun k => String.join (k.map toString))
      .ok (sampled.map (fun i => outcome_strings.getD i ""))

/-! ## Operator embedding -/

/-- A `FermionicOp` as consumed and produced by
`FermionCircuitSolver._embed_operator`: `operator.terms()` iterates
`(term, coeff)` pairs where each term is a sequence of
`(action, mode-index)` pairs, and
`FermionicOp(embedded_terms, register_length=..., display_format="dense")`
rebuilds an operator from such a list.  The operator is modelled by that
terms list together with its `register_length`; the action strings `"+"`/`"-"`
are kept as an uninterpreted `String`. -/
structure FermionicOpL where
  terms : List (List (String × ℕ) × ℂ)
  register_length : ℕ

/-- The inner loop of `FermionCircuitSolver._embed_operator`:
`for action, index in term: embedded_term.append((action, qargs[index]))`,
where `qargs[index]` raises `IndexError` when out of range. -/
def embedTermF (qargs : List ℕ) : List (String × ℕ) → Except QCAErr (List (String × ℕ))
  | [] => .ok []
  | (action, index) :: rest =>
    match qargs[index]? with
    | none => .error .indexError
    | some q => do
      let r ← embedTermF qargs rest
      .ok ((action, q) :: r)

/-- The outer loop of `FermionCircuitSolver._embed_operator` over
`operator.terms()`. -/
def embedTermsF (qargs : List ℕ) :
    List (List (String × ℕ) × ℂ) → Except QCAErr (List (List (String × ℕ) × ℂ))
  | [] => .ok []
  | (term, coeff) :: rest => do
    let t ← embedTermF qargs term
    let r ← embedTermsF qargs rest
    .ok ((t, coeff) :: r)

/-- `FermionCircuitSolver._embed_operator` (the `isinstance(..., FermionicOp)`
check is discharged by typing). -/
def FermionCircuitSolver_embed_operator (operator : FermionicOpL) (num_wires : ℕ)
    (qargs : List ℕ) : Except QCAErr FermionicOpL :=
  if operator.register_length ≠ qargs.length then .error .sizeMismatch
  else do
    let embedded_terms ← embedTermsF qargs operator.terms
    .ok ⟨embedded_terms, num_wires⟩

/-- A `SpinOp` as consumed and produced by
`SpinCircuitSolver._embed_operator`: its `_data` maps sparse labels to
complex factors.  A sparse label is a space-separated sequence of term
tokens such as `X_0` or `Y_1^2`; since valid labels are single-spaced joins
of nonempty space-free tokens, a label is modelled by its token list (each
token a `List Char`), on which the source's `label.split()` and
`" ".join(...)` are the identity.  `_data` is a Python dict: an ordered
association list with pairwise-distinct keys. -/
structure SpinOpL where
  data : List (List (List Char) × ℂ)
  spin : ℚ
  num_spins : ℕ

/-- The per-token rewrite of `SpinCircuitSolver._embed_operator`:
`term[:2] + str(qargs[int(term[2])]) + term[3:]`.  `term[2]` raises
`IndexError` on a short token, `int(...)` raises `ValueError` on a
non-digit, and `qargs[...]` raises `IndexError` when out of range. -/
def embedTokenS (qargs : List ℕ) (term : List Char) : Except QCAErr (List Char) :=
  match term[2]? with
  | none => .error .indexError
  | some c =>
    if c.isDigit then
      match qargs[c.toNat - 48]? with
      | none => .error .indexError
      | some q => .ok (term.take 2 ++ (toString q).data ++ term.drop 3)
    else .error .valueError

/-- The label rewrite of `SpinCircuitSolver._embed_operator`:
`[term[:2] + str(qargs[int(term[2])]) + term[3:] for term in old_labels]`. -/
def embedLabelS (qargs : List ℕ) : List (List Char) → Except QCAErr (List (List Char))
  | [] => .ok []
  | term :: rest => do
    let t ← embedTokenS qargs term
    let r ← embedLabelS qargs rest
    .ok (t :: r)

/-- Python dict assignment `d[k] = v` on an ordered association list: an
existing key keeps its position and gets the new value, a new key is
appended. -/
def dictInsert (k : List (List Char)) (v : ℂ) (d : List (List (List Char) × ℂ)) :
    List (List (List Char) × ℂ) :=
  if d.any (fun p => p.1 = k) then
    d.map (fun p => if p.1 = k then (k, v) else p)
  else d ++ [(k, v)]

/-- The dict-building loop of `SpinCircuitSolver._embed_operator`:
`for label, factor in operator._data.items():
embedded_op_dict[" ".join(map(str, new_labels))] = factor`. -/
def embedDataS (qargs : List ℕ) (acc : List (List (List Char) × ℂ)) :
    List (List (List Char) × ℂ) → Except QCAErr (List (List (List Char) × ℂ))
  | [] => .ok acc
  | (label, factor) :: rest => do
    let new_labels ← embedLabelS qargs label
    embedDataS qargs (dictInsert new_labels factor acc) rest

/-- `SpinCircuitSolver._embed_operator`: rebuilds
`SpinOp(embedded_op_dict, spin=self.spin, num_spins=num_wires)`.
`solver_spin` is the solver's `self.spin`. -/
def SpinCircuitSolver_embed_operator (solver_spin : ℚ) (operator : SpinOpL)
    (num_wires : ℕ) (qargs : List ℕ) : Except QCAErr SpinOpL :=
  if operator.num_spins ≠ qargs.length then .error .sizeMismatch
  else do
    let d ← embedDataS qargs [] operator.data
    .ok ⟨d, solver_spin, num_wires⟩

/-- The ten decimal digit characters; `c.isDigit` holds exactly for these. -/
def digitChars : List Char :=
  ['0', '1', '2', '3', '4', '5', '6', '7', '8', '9']

/-! ## Helper lemmas -/

theorem oneHot_length (dim idx : ℕ) : (oneHot dim idx).length = dim := by
  simp [oneHot]

theorem oneHot_getD (dim idx j : ℕ) (hj : j < dim) :
    (oneHot dim idx).getD j 0 = if j = idx then 1 else 0 := by
  rw [List.getD_eq_getElem _ _ (show j < (oneHot dim idx).length by simpa [oneHot_length] using hj)]
  simp [oneHot]

theorem oneHot_unitAt (dim idx : ℕ) (h : idx < dim) : unitAt (oneHot dim idx) idx := by
  refine ⟨by simpa [oneHot_length] using h, ?_, ?_⟩
  · rw [oneHot_getD dim idx idx h, if_pos rfl]
    exact map_one Complex.abs
  · intro j hj hne
    rw [oneHot_getD dim idx j (by simpa [oneHot_length] using hj), if_neg hne]

theorem spin_dim_pos (spin : ℚ) (h : 0 ≤ spin) (n : ℕ) : 0 < spin_dim spin n := by
  have h1 : (1 : ℚ) ≤ 2 * spin + 1 := by linarith
  have h2 : (1 : ℚ) ≤ (2 * spin + 1) ^ n := by
    induction n with
    | zero => simp
    | succ k ih => rw [pow_succ]; nlinarith
  have h3 : (1 : ℤ) ≤ ⌊(2 * spin + 1) ^ n⌋ := Int.le_floor.mpr (by exact_mod_cast h2)
  unfold spin_dim pyInt
  rw [if_pos (by linarith)]
  omega

/-! ## Claims -/

/-- C4: for the spin solver with spin 1/2 and a 3-wire circuit,
`preprocess_circuit` sets `dim = 8`, and `draw_shots` decodes a sampled basis
index 5 into the base-2 expansion of 5 across 3 digits in little-endian wire
order, the string `"1 0 1"`. -/
theorem C4_spin_dim_and_shot_decoding :
    spin_dim (1/2) 3 = 8 ∧
    spin_decode_index 2 3 5 = [1, 0, 1] ∧
    Nat.ofDigits 2 [1, 0, 1] = 5 ∧ (∀ d ∈ [1, 0, 1], d < 2) ∧
    SpinCircuitSolver_draw_shots (1/2) 8 (some 1) 8 [5] = .ok ["1 0 1"] := by
  exact ⟨by with_unfolding_all rfl, by decide, by decide, by decide,
    by with_unfolding_all rfl⟩

/-- C10: `SpinCircuitSolver.__init__` raises exactly when `Fraction(spin)` has
a denominator other than 1 or 2; zero and negative integer or half-integer
spins are accepted without error. -/
theorem C10_spin_init_denominator (q : ℚ) (shots seed : Option ℕ) :
    (SpinCircuitSolver_init q shots seed = .error .spinNotHalfInteger ↔
      q.den ≠ 1 ∧ q.den ≠ 2) ∧
    ((q.den = 1 ∨ q.den = 2) →
      SpinCircuitSolver_init q shots seed = .ok ⟨q, shots, seed⟩) := by
  unfold SpinCircuitSolver_init
  split
  next h =>
    refine ⟨⟨fun hcon => by simp at hcon, fun hne => absurd h (by tauto)⟩, fun _ => rfl⟩
  next h =>
    push_neg at h
    exact ⟨⟨fun _ => h, fun _ => rfl⟩, fun h2 => absurd h2 (by tauto)⟩

/-- Witness for C10: the spin-0 and spin-(-3/2) solvers construct without
error, so positivity is indeed not enforced. -/
theorem C10_witness :
    SpinCircuitSolver_init 0 none none = .ok ⟨0, none, none⟩ ∧
    SpinCircuitSolver_init (-3/2) none none = .ok ⟨-3/2, none, none⟩ :=
  ⟨(C10_spin_init_denominator 0 none none).2 (Or.inl (by with_unfolding_all rfl)),
   (C10_spin_init_denominator (-3/2) none none).2 (Or.inr (by with_unfolding_all rfl))⟩

/-- C6 counterexample: with `shots = None` AND a mismatched distribution
length, both solvers raise the dimension error, not the shots-unset error —
so the shots-unset condition does not fire "regardless of the other
argument's state". -/
theorem C6_counterexample :
    SpinCircuitSolver_draw_shots (1/2) 2 none 1 [] = .error .dimMismatch ∧
    FermionCircuitSolver_draw_shots ⟨[[0]]⟩ 1 none 0 [] = .error .dimMismatch ∧
    QCAErr.dimMismatch ≠ QCAErr.shotsUnset := by
  exact ⟨by with_unfolding_all rfl, by with_unfolding_all rfl, by decide⟩

/-- C6 (amended): for both solvers, a distribution whose length differs from
`dim` always fails with the dimension error (regardless of `shots`); with a
distribution of the correct length, `shots = None` fails with the
shots-unset error.  The dimension check precedes the shots check. -/
theorem C6_draw_shots_preconditions (basis : FermionicBasisL) (spin : ℚ)
    (dim meas_dim : ℕ) (shots : Option ℕ) (sampled : List ℕ) :
    (meas_dim ≠ dim →
      FermionCircuitSolver_draw_shots basis dim shots meas_dim sampled = .error .dimMismatch ∧
      SpinCircuitSolver_draw_shots spin dim shots meas_dim sampled = .error .dimMismatch) ∧
    (meas_dim = dim → shots = none →
      FermionCircuitSolver_draw_shots basis dim shots meas_dim sampled = .error .shotsUnset ∧
      SpinCircuitSolver_draw_shots spin dim shots meas_dim sampled = .error .shotsUnset) := by
  constructor
  · intro hne
    constructor
    · unfold FermionCircuitSolver_draw_shots
      rw [if_pos hne]
    · unfold SpinCircuitSolver_draw_shots
      rw [if_pos hne]
  · intro heq hshots
    subst heq hshots
    constructor
    · unfold FermionCircuitSolver_draw_shots
      rw [if_neg (by simp)]
    · unfold SpinCircuitSolver_draw_shots
      rw [if_neg (by simp)]

/-- Witness for C6 (amended), at concrete inputs for both error conditions. -/
theorem C6_witness :
    FermionCircuitSolver_draw_shots ⟨[]⟩ 1 (some 3) 0 [] = .error .dimMismatch ∧
    SpinCircuitSolver_draw_shots (1/2) 2 none 2 [] = .error .shotsUnset :=
  ⟨((C6_draw_shots_preconditions ⟨[]⟩ (1/2) 1 0 (some 3) []).1 (by decide)).1,
   ((C6_draw_shots_preconditions ⟨[]⟩ (1/2) 2 2 none []).2 rfl rfl).2⟩

/-- C7 counterexample: with `num_species = 2` and a 3-wire circuit containing
no gate terms, the conservation check returns `(True, True)` and raises
nothing, so the shape-mismatch error is not raised "for every such circuit,
independent of the circuit's gate contents". -/
theorem C7_counterexample :
    FermionCircuitSolver_check_conservations 2 3 [] = .ok (true, true) := rfl

/-- C7 (amended): when `num_species > 1` and the circuit's wire count is not
a multiple of `num_species`, the conservation check raises the
shape-mismatch error provided the circuit's first gate term has the declared
length and equal creation/annihilation counts (the error fires at the first
term that passes the length and particle-count checks). -/
theorem C7_species_shape_error (num_species num_qubits : ℕ)
    (ops : List FermionicOpDense) (t : List Char) (rest : List (List Char))
    (hs : 1 < num_species) (hd : num_qubits % num_species ≠ 0)
    (hterms : termsOf ops = t :: rest)
    (hlen : t.length = num_qubits)
    (hcnt : t.count '+' = t.count '-') :
    FermionCircuitSolver_check_conservations num_species num_qubits ops =
      .error .speciesShape := by
  unfold FermionCircuitSolver_check_conservations
  rw [hterms]
  unfold checkTermsF
  rw [if_neg (by simp [hlen]), if_neg (by simp [hcnt]), if_pos hs, if_pos hd]

/-- Witness for C7 (amended): two species, three wires, one hopping-free term. -/
theorem C7_witness :
    FermionCircuitSolver_check_conservations 2 3 [[(['I', 'I', 'I'], 1)]] =
      .error .speciesShape :=
  C7_species_shape_error 2 3 [[(['I', 'I', 'I'], 1)]] ['I', 'I', 'I'] []
    (by decide) (by decide) rfl (by decide) (by decide)

theorem checkTermsF_all_conserved (num_species num_qubits : ℕ)
    (terms : List (List Char)) (flag : Bool)
    (hlen : ∀ t ∈ terms, t.length = num_qubits)
    (hdiv : 1 < num_species → num_qubits % num_species = 0)
    (hcnt : ∀ t ∈ terms, t.count '+' = t.count '-') :
    ∃ s, checkTermsF num_species num_qubits flag terms = .ok (true, s) := by
  induction terms generalizing flag with
  | nil => exact ⟨flag, rfl⟩
  | cons t rest ih =>
    have ht := hlen t (by simp)
    have hc := hcnt t (by simp)
    unfold checkTermsF
    rw [if_neg (by simp [ht]), if_neg (by simp [hc])]
    by_cases hs : 1 < num_species
    · rw [if_pos hs, if_neg (by simp [hdiv hs])]
      exact ih _ (fun u hu => hlen u (List.mem_cons_of_mem _ hu))
        (fun u hu => hcnt u (List.mem_cons_of_mem _ hu))
    · rw [if_neg hs]
      exact ih _ (fun u hu => hlen u (List.mem_cons_of_mem _ hu))
        (fun u hu => hcnt u (List.mem_cons_of_mem _ hu))

theorem checkTermsF_violation (num_species num_qubits : ℕ)
    (terms : List (List Char)) (flag : Bool)
    (hlen : ∀ t ∈ terms, t.length = num_qubits)
    (hdiv : 1 < num_species → num_qubits % num_species = 0)
    (hex : ∃ t ∈ terms, t.count '+' ≠ t.count '-') :
    checkTermsF num_species num_qubits flag terms = .ok (false, false) := by
  induction terms generalizing flag with
  | nil => simp at hex
  | cons t rest ih =>
    have ht := hlen t (by simp)
    unfold checkTermsF
    rw [if_neg (by simp [ht])]
    by_cases hc : t.count '+' = t.count '-'
    · rw [if_neg (by simp [hc])]
      have hex' : ∃ u ∈ rest, u.count '+' ≠ u.count '-' := by
        rcases hex with ⟨u, hu, hne⟩
        rcases List.mem_cons.mp hu with h | h
        · exact absurd hc (h ▸ hne)
        · exact ⟨u, h, hne⟩
      by_cases hs : 1 < num_species
      · rw [if_pos hs, if_neg (by simp [hdiv hs])]
        exact ih _ (fun u hu => hlen u (List.mem_cons_of_mem _ hu)) hex'
      · rw [if_neg hs]
        exact ih _ (fun u hu => hlen u (List.mem_cons_of_mem _ hu)) hex'
    · rw [if_pos (by simp [hc])]

/-- C2 counterexample: `num_species = 2`, a 3-wire circuit whose second term
`+II` has unequal creation/annihilation counts.  The check raises the
species shape-mismatch error at the first (conserving) term instead of
returning `(False, False)`: the claim's quantification over "every circuit
whose gate operators all have terms of the correct length" also covers
circuits whose wire count is not a multiple of `num_species`. -/
theorem C2_counterexample :
    FermionCircuitSolver_check_conservations 2 3
      [[(['I', 'I', 'I'], 1), (['+', 'I', 'I'], 1)]] = .error .speciesShape := by
  with_unfolding_all rfl

/-- C2 (amended): provided additionally that `num_species ≤ 1` or the wire
count is a multiple of `num_species`, the conservation check returns
`particle_conservation = True` when every term of every gate operator has
equal creation/annihilation counts, and returns `(False, False)` — skipping
everything after the offending term — as soon as any term has unequal
counts. -/
theorem C2_particle_conservation (num_species num_qubits : ℕ)
    (ops : List FermionicOpDense)
    (hlen : ∀ t ∈ termsOf ops, t.length = num_qubits)
    (hdiv : 1 < num_species → num_qubits % num_species = 0) :
    ((∀ t ∈ termsOf ops, t.count '+' = t.count '-') →
      ∃ s, FermionCircuitSolver_check_conservations num_species num_qubits ops =
        .ok (true, s)) ∧
    ((∃ t ∈ termsOf ops, t.count '+' ≠ t.count '-') →
      FermionCircuitSolver_check_conservations num_species num_qubits ops =
        .ok (false, false)) := by
  constructor
  · intro hcnt
    exact checkTermsF_all_conserved num_species num_qubits (termsOf ops) true hlen hdiv hcnt
  · intro hex
    exact checkTermsF_violation num_species num_qubits (termsOf ops) true hlen hdiv hex

/-- Witness for C2 (amended): a conserving hopping term `+-` and, separately,
a single non-conserving term `+I`. -/
theorem C2_witness :
    (∃ s, FermionCircuitSolver_check_conservations 2 2 [[(['+', '-'], 1)]] =
      .ok (true, s)) ∧
    FermionCircuitSolver_check_conservations 1 2 [[(['+', 'I'], 1)]] =
      .ok (false, false) :=
  ⟨(C2_particle_conservation 2 2 [[(['+', '-'], 1)]] (by decide) (by decide)).1 (by decide),
   (C2_particle_conservation 1 2 [[(['+', 'I'], 1)]] (by decide) (by decide)).2
     ⟨['+', 'I'], by decide, by decide⟩⟩

/-- C5: assigning a basis raises exactly when its dimension exceeds
`max_dimension`; a successful assignment stores the basis (keeping
`max_dimension`); and in every reachable solver state with a basis set,
the basis dimension is at most `max_dimension` (the raising branch produces
no new state, so the previously stored basis persists). -/
theorem C5_basis_dimension_bounded :
    (∀ (s : FermionSolverState) (b : FermionicBasisL),
      FermionCircuitSolver_basis_set s b = .error .dimExceeded ↔
        s.max_dimension < b.dimension) ∧
    (∀ (s : FermionSolverState) (b : FermionicBasisL) (s' : FermionSolverState),
      FermionCircuitSolver_basis_set s b = .ok s' →
        s' = ⟨s.max_dimension, some b⟩ ∧ b.dimension ≤ s.max_dimension) ∧
    (∀ s : FermionSolverState, FermionReachable s →
      ∀ b : FermionicBasisL, s.basis = some b → b.dimension ≤ s.max_dimension) := by
  have hok : ∀ (s : FermionSolverState) (b : FermionicBasisL) (s' : FermionSolverState),
      FermionCircuitSolver_basis_set s b = .ok s' →
        s' = ⟨s.max_dimension, some b⟩ ∧ b.dimension ≤ s.max_dimension := by
    intro s b s' h
    unfold FermionCircuitSolver_basis_set at h
    by_cases hd : b.dimension > s.max_dimension
    · rw [if_pos hd] at h
      exact absurd h (by simp)
    · rw [if_neg hd] at h
      refine ⟨?_, not_lt.mp hd⟩
      cases h
      rfl
  refine ⟨?_, hok, ?_⟩
  · intro s b
    unfold FermionCircuitSolver_basis_set
    by_cases hd : b.dimension > s.max_dimension
    · rw [if_pos hd]
      exact ⟨fun _ => hd, fun _ => rfl⟩
    · rw [if_neg hd]
      exact ⟨fun h => by simp at h, fun h => absurd h hd⟩
  · intro s hreach
    induction hreach with
    | init m => intro b hb; simp at hb
    | step s b s' _ hset _ =>
      intro b' hb'
      rcases hok s b s' hset with ⟨hs', hle⟩
      subst hs'
      simp only [FermionSolverState.mk.injEq] at hb'
      cases hb'
      exact hle

/-- Witness for C5: a basis of dimension 1 assigned under ceiling 5 yields a
reachable state, and its stored basis obeys the bound. -/
theorem C5_witness : FermionicBasisL.dimension ⟨[[1, 0]]⟩ ≤ 5 :=
  C5_basis_dimension_bounded.2.2 ⟨5, some ⟨[[1, 0]]⟩⟩
    (FermionReachable.step ⟨5, none⟩ ⟨[[1, 0]]⟩ ⟨5, some ⟨[[1, 0]]⟩⟩
      (FermionReachable.init 5) rfl)
    ⟨[[1, 0]]⟩ rfl

/-- C1: for every valid circuit, `get_initial_state` returns a column vector
of length `dim` with exactly one nonzero entry of magnitude 1, at the basis
index of the circuit's declared initial configuration: for the fermionic
solver the index of the initial occupation vector within the basis's
enumeration, for the spin solver always index 0. -/
theorem C1_initial_state_one_nonzero (basis : FermionicBasisL)
    (initial_occs : List ℕ) (hmem : initial_occs ∈ basis.occupations)
    (spin : ℚ) (hspin : 0 ≤ spin) (num_qubits : ℕ) :
    (∃ v, FermionCircuitSolver_get_initial_state basis initial_occs = .ok v ∧
      v.length = basis.dimension ∧
      ∃ idx, unitAt v idx ∧ idx = pyIndex basis.occupations initial_occs ∧
        basis.occupations.getD idx [] = initial_occs) ∧
    ((SpinCircuitSolver_get_initial_state spin num_qubits).length =
        spin_dim spin num_qubits ∧
      unitAt (SpinCircuitSolver_get_initial_state spin num_qubits) 0) := by
  constructor
  · have hidx : pyIndex basis.occupations initial_occs <
        basis.occupations.length :=
      List.findIdx_lt_length_of_exists ⟨initial_occs, hmem, by simp⟩
    refine ⟨oneHot basis.dimension (pyIndex basis.occupations initial_occs),
      ?_, oneHot_length _ _, pyIndex basis.occupations initial_occs,
      oneHot_unitAt _ _ hidx, rfl, ?_⟩
    · unfold FermionCircuitSolver_get_initial_state
      rw [if_pos hmem]
    · rw [List.getD_eq_getElem _ _ hidx]
      exact of_decide_eq_true (@List.findIdx_getElem _ _ _ hidx)
  · exact ⟨oneHot_length _ _,
      oneHot_unitAt _ 0 (spin_dim_pos spin hspin num_qubits)⟩

/-- Witness for C1, at a two-state basis with the initial occupations in
second position, and at the spin-1/2 single-wire solver. -/
theorem C1_witness :
    (∃ v, FermionCircuitSolver_get_initial_state ⟨[[1, 0], [0, 1]]⟩ [0, 1] = .ok v ∧
      v.length = FermionicBasisL.dimension ⟨[[1, 0], [0, 1]]⟩ ∧
      ∃ idx, unitAt v idx ∧
        idx = pyIndex (FermionicBasisL.occupations ⟨[[1, 0], [0, 1]]⟩) [0, 1] ∧
        (FermionicBasisL.occupations ⟨[[1, 0], [0, 1]]⟩).getD idx [] = [0, 1]) ∧
    ((SpinCircuitSolver_get_initial_state (1/2) 1).length = spin_dim (1/2) 1 ∧
      unitAt (SpinCircuitSolver_get_initial_state (1/2) 1) 0) :=
  C1_initial_state_one_nonzero ⟨[[1, 0], [0, 1]]⟩ [0, 1] (by decide)
    (1/2) (by norm_num) 1

theorem embedTermF_range (k : ℕ) (term : List (String × ℕ))
    (h : ∀ p ∈ term, p.2 < k) :
    embedTermF (List.range k) term = .ok term := by
  induction term with
  | nil => rfl
  | cons p rest ih =>
    obtain ⟨action, index⟩ := p
    have hidx : index < k := h (action, index) (by simp)
    simp only [embedTermF, List.getElem?_range hidx]
    rw [ih (fun q hq => h q (List.mem_cons_of_mem _ hq))]
    rfl

theorem embedTermsF_range (k : ℕ) (terms : List (List (String × ℕ) × ℂ))
    (h : ∀ tc ∈ terms, ∀ p ∈ tc.1, p.2 < k) :
    embedTermsF (List.range k) terms = .ok terms := by
  induction terms with
  | nil => rfl
  | cons tc rest ih =>
    obtain ⟨term, coeff⟩ := tc
    simp only [embedTermsF]
    rw [embedTermF_range k term (h (term, coeff) (by simp)),
      ih (fun u hu => h u (List.mem_cons_of_mem _ hu))]
    rfl

theorem digit_isDigit : ∀ c ∈ digitChars, c.isDigit = true := by decide

theorem digit_toString_data : ∀ c ∈ digitChars, (toString (c.toNat - 48)).data = [c] := by
  decide

theorem embedTokenS_digit (qargs : List ℕ) (t : List Char) (c : Char)
    (h2 : t[2]? = some c) (hc : c ∈ digitChars) (hk : c.toNat - 48 < qargs.length) :
    embedTokenS qargs t =
      .ok (t.take 2 ++ (toString (qargs.getD (c.toNat - 48) 0)).data ++ t.drop 3) := by
  simp only [embedTokenS, h2]
  rw [if_pos (digit_isDigit c hc), List.getElem?_eq_getElem hk,
    List.getD_eq_getElem _ _ hk]

theorem embedTokenS_range (k : ℕ) (t : List Char) (c : Char)
    (h2 : t[2]? = some c) (hc : c ∈ digitChars) (hk : c.toNat - 48 < k) :
    embedTokenS (List.range k) t = .ok t := by
  rw [embedTokenS_digit (List.range k) t c h2 hc (by simpa using hk)]
  have hval : (List.range k).getD (c.toNat - 48) 0 = c.toNat - 48 := by
    rw [List.getD_eq_getElem _ _ (by simpa using hk)]
    exact List.getElem_range _ _
  rw [hval, digit_toString_data c hc]
  obtain ⟨hlt, hat⟩ := List.getElem?_eq_some.mp h2
  have hsplit := List.take_append_drop 2 t
  rw [List.drop_eq_getElem_cons hlt, hat] at hsplit
  rw [List.append_assoc, List.singleton_append, hsplit]

theorem embedLabelS_range (k : ℕ) (label : List (List Char))
    (h : ∀ t ∈ label, ∃ c ∈ digitChars, t[2]? = some c ∧ c.toNat - 48 < k) :
    embedLabelS (List.range k) label = .ok label := by
  induction label with
  | nil => rfl
  | cons t rest ih =>
    obtain ⟨c, hc, h2, hk⟩ := h t (by simp)
    simp only [embedLabelS]
    rw [embedTokenS_range k t c h2 hc hk,
      ih (fun u hu => h u (List.mem_cons_of_mem _ hu))]
    rfl

theorem dictInsert_not_mem (k : List (List Char)) (v : ℂ)
    (d : List (List (List Char) × ℂ)) (h : ∀ p ∈ d, p.1 ≠ k) :
    dictInsert k v d = d ++ [(k, v)] := by
  have hno : ¬((d.any fun p => decide (p.1 = k)) = true) := by
    simp only [List.any_eq_true, decide_eq_true_eq, not_exists]
    intro p hp
    exact h p hp.1 hp.2
  unfold dictInsert
  rw [if_neg hno]

theorem embedDataS_range (k : ℕ) (data : List (List (List Char) × ℂ)) :
    ∀ acc : List (List (List Char) × ℂ),
      (∀ lf ∈ data, embedLabelS (List.range k) lf.1 = .ok lf.1) →
      (∀ p ∈ acc, ∀ q ∈ data, p.1 ≠ q.1) →
      data.Pairwise (fun p q => p.1 ≠ q.1) →
      embedDataS (List.range k) acc data = .ok (acc ++ data) := by
  induction data with
  | nil =>
    intro acc _ _ _
    simp [embedDataS]
  | cons lf rest ih =>
    intro acc hlab hdisj hpair
    obtain ⟨label, factor⟩ := lf
    obtain ⟨hhead, htail⟩ := List.pairwise_cons.mp hpair
    simp only [embedDataS]
    rw [hlab (label, factor) (by simp)]
    show embedDataS (List.range k) (dictInsert label factor acc) rest = _
    rw [dictInsert_not_mem label factor acc
      (fun p hp => hdisj p hp (label, factor) (by simp))]
    rw [ih (acc ++ [(label, factor)])
      (fun u hu => hlab u (List.mem_cons_of_mem _ hu))
      (fun p hp q hq => by
        rcases List.mem_append.mp hp with h | h
        · exact hdisj p h q (List.mem_cons_of_mem _ hq)
        · have hpl : p = (label, factor) := by simpa using h
          subst hpl
          exact hhead q hq)
      htail]
    simp

/-- C3: embedding an operator of arity `k` into `num_wires = k` wires with
the identity mapping `qargs = [0, 1, ..., k-1]` returns an operator
structurally equal to the original, for both the fermionic and the spin
solver.  Well-formedness of the operator is assumed: fermionic mode indices
below the register length; spin term tokens carrying a decimal digit site
index below `num_spins` at position 2; distinct spin labels (a dict). -/
theorem C3_embed_identity_roundtrip (fop : FermionicOpL) (sop : SpinOpL)
    (hf : ∀ tc ∈ fop.terms, ∀ p ∈ tc.1, p.2 < fop.register_length)
    (hs : ∀ lf ∈ sop.data, ∀ t ∈ lf.1,
      ∃ c ∈ digitChars, t[2]? = some c ∧ c.toNat - 48 < sop.num_spins)
    (hdist : sop.data.Pairwise (fun p q => p.1 ≠ q.1)) :
    FermionCircuitSolver_embed_operator fop fop.register_length
      (List.range fop.register_length) = .ok fop ∧
    SpinCircuitSolver_embed_operator sop.spin sop sop.num_spins
      (List.range sop.num_spins) = .ok sop := by
  constructor
  · unfold FermionCircuitSolver_embed_operator
    rw [if_neg (by simp)]
    rw [embedTermsF_range fop.register_length fop.terms hf]
    rfl
  · unfold SpinCircuitSolver_embed_operator
    rw [if_neg (by simp)]
    rw [embedDataS_range sop.num_spins sop.data []
      (fun lf hlf => embedLabelS_range sop.num_spins lf.1 (hs lf hlf))
      (by simp) hdist]
    rfl

/-- Witness for C3: a two-mode hopping generator and a two-spin `X_0 Y_1`
generator, each embedded identically into their own arity. -/
theorem C3_witness :
    FermionCircuitSolver_embed_operator ⟨[([("+", 0), ("-", 1)], 1)], 2⟩ 2
      (List.range 2) = .ok ⟨[([("+", 0), ("-", 1)], 1)], 2⟩ ∧
    SpinCircuitSolver_embed_operator (1/2)
      ⟨[([['X', '_', '0'], ['Y', '_', '1']], 1)], 1/2, 2⟩ 2 (List.range 2) =
      .ok ⟨[([['X', '_', '0'], ['Y', '_', '1']], 1)], 1/2, 2⟩ :=
  C3_embed_identity_roundtrip ⟨[([("+", 0), ("-", 1)], 1)], 2⟩
    ⟨[([['X', '_', '0'], ['Y', '_', '1']], 1)], 1/2, 2⟩
    (by decide) (by decide) (by decide)

/-- C9: the spin `_embed_operator` reads exactly one character (position 2 of
each sparse-label token) as the local site index.  For a token whose site
index is a single decimal digit `c` (token `p ++ [c] ++ s` with a 2-character
action part `p`), the rewrite correctly produces the token for site
`qargs[int(c)]`.  For a token with a multi-digit site index the produced
label does not correspond to relabeling through `qargs`: on `X_10` with
`qargs = [3,…,13]` (site `i ↦ i + 3`) the code produces `X_40` — reading only
the `1` and gluing the leftover `0` back on — instead of `X_13`. -/
theorem C9_single_digit_site_index (qargs : List ℕ) (p s : List Char) (c : Char)
    (hp : p.length = 2) (hc : c ∈ digitChars) (hk : c.toNat - 48 < qargs.length) :
    embedTokenS qargs (p ++ c :: s) =
      .ok (p ++ (toString (qargs.getD (c.toNat - 48) 0)).data ++ s) ∧
    (embedTokenS [3, 4, 5, 6, 7, 8, 9, 10, 11, 12, 13] ['X', '_', '1', '0'] =
        .ok ['X', '_', '4', '0'] ∧
      (['X', '_', '4', '0'] : List Char) ≠ 'X' :: '_' :: (toString (13 : ℕ)).data) := by
  refine ⟨?_, by with_unfolding_all rfl, by decide⟩
  have h2 : (p ++ c :: s)[2]? = some c := by
    rw [List.getElem?_append_right (by omega), hp]
    simp
  rw [embedTokenS_digit qargs (p ++ c :: s) c h2 hc hk]
  rw [List.take_left' hp]
  have hdrop : (p ++ c :: s).drop 3 = s := by
    rw [show p ++ c :: s = (p ++ [c]) ++ s by simp]
    exact List.drop_left' (by simp [hp])
  rw [hdrop]

/-- Witness for C9: the single-site token `X_0` relabelled through
`qargs = [7]` becomes `X_7`. -/
theorem C9_witness :
    embedTokenS [7] ['X', '_', '0'] = .ok ['X', '_', '7'] ∧
    embedTokenS [3, 4, 5, 6, 7, 8, 9, 10, 11, 12, 13] ['X', '_', '1', '0'] =
      .ok ['X', '_', '4', '0'] := by
  have h := C9_single_digit_site_index [7] ['X', '_'] [] '0'
    rfl (by decide) (by decide)
  exact ⟨by simpa using h.1, h.2.1⟩
